import Mathlib

/-!
duplifinder: a shallow embedding of `duplifinder.go`, a command-line
duplicate-file finder, and the properties its specification states about it.

The operating system is a value of type `World`: what `os.Open`, `file.Stat`,
`fd.Read` and `ioutil.ReadDir` answer for each path, together with the library
function `path.Join` and the order in which `range` visits a Go map.
-/

namespace Duplifinder

/-! ## Data model -/

/-- One byte. -/
abbrev Byte := Fin 256

/-- The source constant `HASH_MAX = 1024 * 1024`. -/
def HASH_MAX : Nat := 1024 * 1024

/-- A Go `map[κ][]string`: an association list, one entry per key. -/
abbrev GoMap (κ : Type) := List (κ × List String)

/-- The Go expression `m[k]`: the stored slice, or the nil slice for a missing key. -/
def mapIndex {κ : Type} [DecidableEq κ] : GoMap κ → κ → List String
  | [], _ => []
  | (k', v) :: rest, k => if k' = k then v else mapIndex rest k

/-- The Go statement `m[k] = v`. -/
def mapAssign {κ : Type} [DecidableEq κ] : GoMap κ → κ → List String → GoMap κ
  | [], k, v => [(k, v)]
  | (k', v') :: rest, k, v =>
    if k' = k then (k, v) :: rest else (k', v') :: mapAssign rest k v

/-- The Go statement `m[k] = append(m[k], x)`. -/
def mapAppend {κ : Type} [DecidableEq κ] (m : GoMap κ) (k : κ) (x : String) : GoMap κ :=
  mapAssign m k (mapIndex m k ++ [x])

/-- The map `filesizes`, of type `map[int64][]string`. -/
abbrev SizeMap := GoMap Int

/-- The key type `[HASH_MAX]byte` of the map `hashing`. -/
abbrev HashKey := List Byte

/-- The map `hashing`, of type `map[[HASH_MAX]byte][]string`. -/
abbrev HashMap := GoMap HashKey

mutual
/-- What `ioutil.ReadDir` answers for a directory and, below it, for each of
its subdirectories. -/
inductive Dir where
  /-- The call `ioutil.ReadDir` returns an error. -/
  | unreadable : Dir
  /-- The call `ioutil.ReadDir` returns these entries. -/
  | listing : Entries → Dir
/-- The entries of one directory listing, in the order `ReadDir` returns them. -/
inductive Entries where
  | nil : Entries
  /-- An entry with `IsDir() = false`, its `Name()` and its `Size()`. -/
  | file : String → Int → Entries → Entries
  /-- An entry with `IsDir() = true`, its `Name()` and what is below it. -/
  | dir : String → Dir → Entries → Entries
end

/-- An open `*os.File`. -/
structure File where
  /-- The answer of `file.Stat()`: `none` for an error, else `Mode().IsDir()`. -/
  stat : Option Bool
  /-- The bytes of the file; `none` when `Read` fails with an error other than
  end of file (a directory, an I/O error). -/
  content : Option (List Byte)
  deriving DecidableEq

/-- The environment the program runs in. -/
structure World where
  /-- The value of `os.Args[0]`. -/
  arg0 : String
  /-- The call `os.Open(name)`: `none` for an error. -/
  osOpen : String → Option File
  /-- The call `ioutil.ReadDir(dirname)`, together with the listings below it. -/
  readDir : String → Dir
  /-- The library function `path.Join` on two elements. -/
  pathJoin : String → String → String
  /-- The order in which `range filesizes` visits the entries. -/
  rangeSizes : SizeMap → List (Int × List String)
  /-- The order in which `range hashing` visits the entries. -/
  rangeHashes : HashMap → List (HashKey × List String)
  /-- A `range` loop visits every entry of the map exactly once. -/
  rangeSizes_perm : ∀ m, (rangeSizes m).Perm m
  /-- A `range` loop visits every entry of the map exactly once. -/
  rangeHashes_perm : ∀ m, (rangeHashes m).Perm m

/-! ## Library functions -/

/-- The Go builtin `copy(dst, src)`, returning the new contents of `dst`. -/
def goCopy (dst src : List Byte) : List Byte :=
  src.take dst.length ++ dst.drop src.length

/-- The method `(*os.File).Read`: the new contents of the buffer and whether
the returned error is non-nil. A single read of a regular file delivers
`min(len(buffer), len(content))` bytes; at end of file `Read` returns `0, io.EOF`. -/
def File.Read (fd : File) (buffer : List Byte) : List Byte × Bool :=
  match fd.content with
  | none => (buffer, true)
  | some content =>
    if buffer.length = 0 then (buffer, false)
    else if content.length = 0 then (buffer, true)
    else (goCopy buffer content, false)

/-- The MD5 digest of the empty input, `d41d8cd98f00b204e9800998ecf8427e`:
the state of `md5.New()` to which nothing has been written. -/
def md5Empty : List Byte :=
  [0xd4, 0x1d, 0x8c, 0xd9, 0x8f, 0x00, 0xb2, 0x04,
   0xe9, 0x80, 0x09, 0x98, 0xec, 0xf8, 0x42, 0x7e]

/-- The method `hash.Sum(b)` on a fresh `md5.New()`: it appends the digest of
what was written to the hash (nothing) to `b`. -/
def hashSum (b : List Byte) : List Byte := b ++ md5Empty

/-- The library function `strings.Join`. -/
def stringsJoin : List String → String → String
  | [], _ => ""
  | [a], _ => a
  | a :: b :: rest, sep => a ++ sep ++ stringsJoin (b :: rest) sep

/-- The text `fmt.Fprintln` writes for the variadic slice `msg`, without the
newline: the operands between brackets, separated by spaces. -/
def log (msg : List String) : String :=
  "[" ++ stringsJoin msg " " ++ "]"

/-! ## The program -/

mutual
/-- The body of `parsePath` for a directory whose `ioutil.ReadDir` answer is
the first argument. -/
def parsePathAt (join : String → String → String) :
    Dir → String → SizeMap → SizeMap
  | .unreadable, _, filesizes => filesizes
  | .listing files, dirname, filesizes => parsePathLoop join files dirname filesizes
/-- The `for _, file := range files` loop of `parsePath`. -/
def parsePathLoop (join : String → String → String) :
    Entries → String → SizeMap → SizeMap
  | .nil, _, filesizes => filesizes
  | .file name filesize rest, dirname, filesizes =>
    parsePathLoop join rest dirname (mapAppend filesizes filesize (join dirname name))
  | .dir name sub rest, dirname, filesizes =>
    parsePathLoop join rest dirname (parsePathAt join sub (join dirname name) filesizes)
end

/-- The function `parsePath`. -/
def parsePath (w : World) (dirname : String) (filesizes : SizeMap) : SizeMap :=
  parsePathAt w.pathJoin (w.readDir dirname) dirname filesizes

/-- The function `stringInSlice`. -/
def stringInSlice (obj : String) : List String → Bool
  | [] => false
  | e :: rest => if e = obj then true else stringInSlice obj rest

/-- The function `hashFile`: the returned slice, or the error message. -/
def hashFile (w : World) (filename : String) : Except String (List Byte) :=
  let buffer : List Byte := List.replicate HASH_MAX 0
  match w.osOpen filename with
  | none => .error ("Skipping: \"" ++ filename ++ "\", unable to open.")
  | some fd =>
    match fd.Read buffer with
    | (_, true) =>
      .error ("Skipping: \"%!(EXTRA string=" ++ filename ++ ", string=\", unable to read.)")
    | (buffer, false) => .ok (hashSum buffer)

/-- The variables of `main` that the loop over the arguments changes. -/
structure ScanState where
  errors : Bool
  filesizes : SizeMap
  dirnames : List String
  stderr : List String

/-- One iteration of the loop `for _, dirname := range flag.Args()`. -/
def scanStep (w : World) (st : ScanState) (dirname : String) : ScanState :=
  if stringInSlice dirname st.dirnames then st
  else
    let st := { st with dirnames := st.dirnames ++ [dirname] }
    match w.osOpen dirname with
    | none =>
      { st with
        errors := true
        stderr := st.stderr ++ [log ["unable to open directory \"", dirname, "\", skipping..."]] }
    | some file =>
      match file.stat with
      | none =>
        { st with
          errors := true
          stderr := st.stderr ++ [log ["Unable to stat file \"", dirname, "\", skipping..."]] }
      | some isDir =>
        if !isDir then
          { st with
            errors := true
            stderr := st.stderr ++
              [log ["Dirname \"", dirname, "\" is not a directory, skipping..."]] }
        else
          { st with filesizes := parsePath w dirname st.filesizes }

/-- The loop `for _, dirname := range flag.Args()`. -/
def scanRoots (w : World) (args : List String) (st : ScanState) : ScanState :=
  args.foldl (scanStep w) st

/-- The state of `main` before the loop over the arguments. -/
def scanInit : ScanState :=
  { errors := false, filesizes := [], dirnames := [], stderr := [] }

/-- The variables the hashing loops change; `calls` is a ghost trace of the
arguments `hashFile` was called with. -/
structure HashState where
  hashing : HashMap
  stderr : List String
  calls : List String

/-- The statements `var hashedArray [HASH_MAX]byte` and
`copy(hashedArray[:], hashedSlice[0:HASH_MAX])`: the key under which `main`
files a hashed slice. -/
def hashedArray (hashedSlice : List Byte) : HashKey :=
  goCopy (List.replicate HASH_MAX 0) (hashedSlice.take HASH_MAX)

/-- One iteration of the loop `for _, filename := range filenames`. -/
def hashStep (w : World) (st : HashState) (filename : String) : HashState :=
  let st := { st with calls := st.calls ++ [filename] }
  match hashFile w filename with
  | .error err => { st with stderr := st.stderr ++ [log [err]] }
  | .ok hashedSlice =>
    { st with hashing := mapAppend st.hashing (hashedArray hashedSlice) filename }

/-- One iteration of the loop `for _, filenames := range filesizes`. -/
def hashBucket (w : World) (st : HashState) (filenames : List String) : HashState :=
  if filenames.length < 2 then st
  else filenames.foldl (hashStep w) st

/-- The loop `for _, filenames := range filesizes`, over the entries in the
order the loop visits them. -/
def hashAll (w : World) (visited : List (Int × List String)) (st : HashState) : HashState :=
  visited.foldl (fun st e => hashBucket w st e.2) st

/-- The text of `fmt.Printf("  [%d] \"%s\"\n", filecount, strings.Join(filenames, "\", \""))`,
without the newline. -/
def printGroup (filecount : Nat) (filenames : List String) : String :=
  "  [" ++ toString filecount ++ "] \"" ++ stringsJoin filenames "\", \"" ++ "\""

/-- The variables of the reporting loop: the lines written to standard output,
`totalcount`, and `printed`, a ghost trace of the slice `filenames` of each
`Printf` call. -/
structure ReportState where
  stdout : List String
  totalcount : Nat
  printed : List (List String)

/-- One iteration of the loop `for _, filenames := range hashing`. -/
def reportStep (st : ReportState) (filenames : List String) : ReportState :=
  let filecount := filenames.length
  if filecount < 2 then st
  else
    { stdout := st.stdout ++ [printGroup filecount filenames]
      totalcount := st.totalcount + 1
      printed := st.printed ++ [filenames] }

/-- The part of `main` from "List all the double files found" to the
"No duplicates found!" notice, over the buckets in the order the loop visits them. -/
def report (visited : List (List String)) : ReportState :=
  let st := visited.foldl reportStep
    { stdout := ["The following files are duplicates of eachother:"], totalcount := 0,
      printed := [] }
  if st.totalcount = 0 then { st with stdout := st.stdout ++ ["No duplicates found!"] } else st

/-- What a run leaves behind: the lines on standard output and standard error
and the exit status; `calls` and `groups` are ghost traces of the arguments of
the `hashFile` calls and of the slices printed as duplicate groups. -/
structure Outcome where
  stdout : List String
  stderr : List String
  exitCode : Nat
  calls : List String
  groups : List (List String)

/-- The size buckets after the loop over the arguments. -/
def scanned (w : World) (args : List String) : ScanState :=
  scanRoots w args scanInit

/-- The hash buckets after the hashing loops. -/
def hashed (w : World) (args : List String) : HashState :=
  hashAll w (w.rangeSizes (scanned w args).filesizes)
    { hashing := [], stderr := (scanned w args).stderr, calls := [] }

/-- The function `main`, on the arguments `flag.Args()`. -/
def main (w : World) (args : List String) : Outcome :=
  if args.length = 0 then
    { stdout := [], stderr := ["Usage of " ++ w.arg0 ++ ":"], exitCode := 1, calls := [],
      groups := [] }
  else
    let scan := scanned w args
    let hs := hashed w args
    let rep := report ((w.rangeHashes hs.hashing).map Prod.snd)
    { stdout := rep.stdout
      stderr := hs.stderr
      exitCode := if scan.errors then 1 else 0
      calls := hs.calls
      groups := rep.printed }

/-! ## Notions of the specification -/

mutual
/-- The file entries beneath a directory whose `ioutil.ReadDir` answer is the
first argument, as the specification describes the walk: every non-directory
entry that lies only under listable directories, with its joined path and its
size, in depth-first order. -/
def filesBeneath (join : String → String → String) :
    Dir → String → List (String × Int)
  | .unreadable, _ => []
  | .listing files, dirname => filesAmong join files dirname
/-- The file entries among and beneath the entries of one listing. -/
def filesAmong (join : String → String → String) :
    Entries → String → List (String × Int)
  | .nil, _ => []
  | .file name size rest, dirname => (join dirname name, size) :: filesAmong join rest dirname
  | .dir name sub rest, dirname =>
    filesBeneath join sub (join dirname name) ++ filesAmong join rest dirname
end

/-- The file entries beneath a root directory. -/
def filesUnder (w : World) (root : String) : List (String × Int) :=
  filesBeneath w.pathJoin (w.readDir root) root

/-- The content digest input of the specification: the first
`min(fileSize, 1 MiB)` bytes of the content, right-padded with zero bytes to
exactly 1 MiB. -/
def paddedPrefix (content : List Byte) : List Byte :=
  let pre := content.take (min content.length HASH_MAX)
  pre ++ List.replicate (HASH_MAX - pre.length) 0

/-- The paths of the size buckets with at least two members, bucket after
bucket in the order the buckets are visited. -/
def candidates : List (Int × List String) → List String
  | [] => []
  | e :: rest => (if e.2.length < 2 then [] else e.2) ++ candidates rest

/-- The key under which `main` files a path, when `hashFile` succeeds on it. -/
def hashKeyOf (w : World) (filename : String) : Option HashKey :=
  match hashFile w filename with
  | .error _ => none
  | .ok hashedSlice => some (hashedArray hashedSlice)

/-- The group line of the specification: two spaces, the count between
brackets, a space, and the paths, each between double quotes, separated by
a comma and a space. -/
def groupLine (paths : List String) : String :=
  "  [" ++ toString paths.length ++ "] " ++
    stringsJoin (paths.map (fun p => "\"" ++ p ++ "\"")) ", "

/-- A root that `main` accepts: it opens, stats, and is a directory. -/
def validRoot (w : World) (dirname : String) : Bool :=
  match w.osOpen dirname with
  | none => false
  | some file => file.stat == some true

/-- The listing has a non-directory entry of this name and size. -/
def hasFile (name : String) (size : Int) : Entries → Bool
  | .nil => false
  | .file n s rest => (n == name && s == size) || hasFile name size rest
  | .dir _ _ rest => hasFile name size rest

/-- The file entries the loop over the arguments adds to the size buckets, in
order: `seen` is the slice `dirnames` before the loop. -/
def walkFrom (w : World) : List String → List String → List (String × Int)
  | _, [] => []
  | seen, r :: rest =>
    if stringInSlice r seen then walkFrom w seen rest
    else (if validRoot w r then filesUnder w r else []) ++ walkFrom w (seen ++ [r]) rest

/-! ## Sample worlds -/

/-- The answer of `os.Open` in a sample world: a root is a directory, a listed
file a regular file with the given bytes, anything else does not exist. -/
def sampleOpen (roots : List (String × Entries)) :
    List (String × List Byte) → String → Option File
  | [], name => if (roots.map Prod.fst).contains name then some ⟨some true, none⟩ else none
  | (path, bytes) :: rest, name =>
    if path = name then some ⟨some false, some bytes⟩ else sampleOpen roots rest name

/-- The answer of `ioutil.ReadDir` in a sample world. -/
def sampleReadDir : List (String × Entries) → String → Dir
  | [], _ => .unreadable
  | (root, files) :: rest, name =>
    if root = name then .listing files else sampleReadDir rest name

/-- A world with the given root directories and regular files, in which
`path.Join` puts a slash between its operands and `range` visits a map in
insertion order. -/
def sampleWorld (roots : List (String × Entries)) (files : List (String × List Byte)) :
    World where
  arg0 := "duplifinder"
  osOpen := sampleOpen roots files
  readDir := sampleReadDir roots
  pathJoin := fun dirname name => dirname ++ "/" ++ name
  rangeSizes := fun m => m
  rangeHashes := fun m => m
  rangeSizes_perm := fun m => List.Perm.refl m
  rangeHashes_perm := fun m => List.Perm.refl m

/-- The bytes of the text `hello`. -/
def helloBytes : List Byte := [104, 101, 108, 108, 111]

/-- The scenario of the specification: directory `A` holds `x` and `y`, both
with the content `hello`, and directory `B` is empty. -/
def helloWorld : World :=
  sampleWorld [("A", .file "x" 5 (.file "y" 5 .nil)), ("B", .nil)]
    [("A/x", helloBytes), ("A/y", helloBytes)]

/-- Directory `r` holds two files of one byte, `a` = 01 and `b` = 02, and two
files of two bytes, `c` = 01 00 and `d` = 03 03. -/
def twoSizesWorld : World :=
  sampleWorld [("r", .file "a" 1 (.file "b" 1 (.file "c" 2 (.file "d" 2 .nil))))]
    [("r/a", [1]), ("r/b", [2]), ("r/c", [1, 0]), ("r/d", [3, 3])]

/-- Directory `r` holds two empty files, `a` and `b`. -/
def emptyFilesWorld : World :=
  sampleWorld [("r", .file "a" 0 (.file "b" 0 .nil))] [("r/a", []), ("r/b", [])]

/-- Directories `A` and `B` each hold an empty file `a.txt`. -/
def emptyTwinsWorld : World :=
  sampleWorld [("A", .file "a.txt" 0 .nil), ("B", .file "a.txt" 0 .nil)]
    [("A/a.txt", []), ("B/a.txt", [])]

/-- Directories `A` and `B` each hold a file `a.txt` with the content `hello`. -/
def twinsWorld : World :=
  sampleWorld [("A", .file "a.txt" 5 .nil), ("B", .file "a.txt" 5 .nil)]
    [("A/a.txt", helloBytes), ("B/a.txt", helloBytes)]

/-- Directory `r` holds `x` = 01 of one byte and `y` = 01 00 of two bytes. -/
def uniqueSizesWorld : World :=
  sampleWorld [("r", .file "x" 1 (.file "y" 2 .nil))] [("r/x", [1]), ("r/y", [1, 0])]

/-! ## Lemmas: Go maps -/

theorem mapIndex_mapAssign {κ : Type} [DecidableEq κ] (m : GoMap κ) (k k' : κ)
    (v : List String) :
    mapIndex (mapAssign m k v) k' = if k = k' then v else mapIndex m k' := by
  induction m with
  | nil => simp [mapAssign, mapIndex]
  | cons e rest ih =>
    obtain ⟨a, b⟩ := e
    by_cases hak : a = k
    · subst hak
      by_cases hk : a = k' <;> simp [mapAssign, mapIndex, hk]
    · by_cases hk : k = k'
      · subst hk
        simp [mapAssign, mapIndex, hak, ih]
      · by_cases hak' : a = k'
        · subst hak'
          simp [mapAssign, mapIndex, hak, hk]
        · simp [mapAssign, mapIndex, hak, hak', hk, ih]

theorem mapIndex_mapAppend {κ : Type} [DecidableEq κ] (m : GoMap κ) (k k' : κ) (x : String) :
    mapIndex (mapAppend m k x) k' =
      mapIndex m k' ++ (if k = k' then [x] else []) := by
  unfold mapAppend
  rw [mapIndex_mapAssign]
  by_cases hk : k = k'
  · subst hk; simp
  · simp [hk]

theorem keys_mapAssign {κ : Type} [DecidableEq κ] (m : GoMap κ) (k : κ) (v : List String) :
    (mapAssign m k v).map Prod.fst =
      if k ∈ m.map Prod.fst then m.map Prod.fst else m.map Prod.fst ++ [k] := by
  induction m with
  | nil => simp [mapAssign]
  | cons e rest ih =>
    obtain ⟨a, b⟩ := e
    by_cases hak : a = k
    · subst hak; simp [mapAssign]
    · have hka : ¬ k = a := fun h => hak h.symm
      by_cases hmem : k ∈ rest.map Prod.fst
      · simp only [mapAssign, hak, if_false, List.map_cons, ih, hmem, if_true,
          List.mem_cons, or_true]
      · simp only [mapAssign, hak, if_false, List.map_cons, ih, hmem, List.mem_cons, hka,
          or_self, List.cons_append]

theorem nodup_keys_mapAssign {κ : Type} [DecidableEq κ] (m : GoMap κ) (k : κ)
    (v : List String) (h : (m.map Prod.fst).Nodup) :
    ((mapAssign m k v).map Prod.fst).Nodup := by
  rw [keys_mapAssign]
  by_cases hmem : k ∈ m.map Prod.fst
  · simpa [hmem] using h
  · rw [if_neg hmem]
    exact List.Nodup.append h (List.nodup_singleton k) (by simpa using hmem)

theorem nodup_keys_mapAppend {κ : Type} [DecidableEq κ] (m : GoMap κ) (k : κ)
    (x : String) (h : (m.map Prod.fst).Nodup) :
    ((mapAppend m k x).map Prod.fst).Nodup :=
  nodup_keys_mapAssign m k _ h

theorem mapIndex_of_mem {κ : Type} [DecidableEq κ] (m : GoMap κ) (k : κ) (v : List String)
    (h : (m.map Prod.fst).Nodup) (hm : (k, v) ∈ m) : mapIndex m k = v := by
  induction m with
  | nil => simp at hm
  | cons e rest ih =>
    obtain ⟨a, b⟩ := e
    simp only [List.map_cons, List.nodup_cons] at h
    rcases List.mem_cons.mp hm with heq | hrest
    · cases heq; simp [mapIndex]
    · have hne : a ≠ k := by
        intro hak
        subst hak
        exact h.1 (List.mem_map.mpr ⟨(a, v), hrest, rfl⟩)
      simp [mapIndex, hne, ih h.2 hrest]

theorem mem_of_mapIndex_ne_nil {κ : Type} [DecidableEq κ] (m : GoMap κ) (k : κ)
    (h : mapIndex m k ≠ []) : (k, mapIndex m k) ∈ m := by
  induction m with
  | nil => simp [mapIndex] at h
  | cons e rest ih =>
    obtain ⟨a, b⟩ := e
    by_cases hak : a = k
    · subst hak; simp [mapIndex]
    · simp only [mapIndex, hak, if_false] at h ⊢
      exact List.mem_cons_of_mem _ (ih h)

/-! ## The directory walk -/

/-- Threading a list of file entries through the size map. -/
theorem mapIndex_foldl_mapAppend (es : List (String × Int)) (m : SizeMap) (s : Int) :
    mapIndex (es.foldl (fun m e => mapAppend m e.2 e.1) m) s =
      mapIndex m s ++ (es.filter (fun e => e.2 = s)).map Prod.fst := by
  induction es generalizing m with
  | nil => simp
  | cons e rest ih =>
    simp only [List.foldl_cons, ih, mapIndex_mapAppend]
    by_cases h : e.2 = s <;> simp [h, List.filter_cons]

mutual
theorem parsePathAt_eq_foldl (join : String → String → String) :
    ∀ (d : Dir) (dirname : String) (m : SizeMap),
      parsePathAt join d dirname m =
        (filesBeneath join d dirname).foldl (fun m e => mapAppend m e.2 e.1) m
  | .unreadable, dirname, m => by simp [parsePathAt, filesBeneath]
  | .listing files, dirname, m => by
    simp only [parsePathAt, filesBeneath]
    exact parsePathLoop_eq_foldl join files dirname m
theorem parsePathLoop_eq_foldl (join : String → String → String) :
    ∀ (es : Entries) (dirname : String) (m : SizeMap),
      parsePathLoop join es dirname m =
        (filesAmong join es dirname).foldl (fun m e => mapAppend m e.2 e.1) m
  | .nil, dirname, m => by simp [parsePathLoop, filesAmong]
  | .file name size rest, dirname, m => by
    simp only [parsePathLoop, filesAmong, List.foldl_cons]
    exact parsePathLoop_eq_foldl join rest dirname _
  | .dir name sub rest, dirname, m => by
    simp only [parsePathLoop, filesAmong, List.foldl_append]
    rw [parsePathLoop_eq_foldl join rest dirname, parsePathAt_eq_foldl join sub (join dirname name)]
end

theorem parsePath_eq_foldl (w : World) (dirname : String) (m : SizeMap) :
    parsePath w dirname m = (filesUnder w dirname).foldl (fun m e => mapAppend m e.2 e.1) m :=
  parsePathAt_eq_foldl _ _ _ _

/-! ## Hashing one file -/

theorem HASH_MAX_pos : 0 < HASH_MAX := by unfold HASH_MAX; norm_num

theorem paddedPrefix_length (c : List Byte) : (paddedPrefix c).length = HASH_MAX := by
  simp only [paddedPrefix, List.length_append, List.length_take, List.length_replicate]
  omega

theorem goCopy_zeros (c : List Byte) :
    goCopy (List.replicate HASH_MAX 0) c = paddedPrefix c := by
  simp only [goCopy, paddedPrefix, List.length_replicate, List.drop_replicate,
    List.length_take]
  congr 1
  · by_cases h : c.length ≤ HASH_MAX
    · rw [Nat.min_eq_left h, List.take_of_length_le h, List.take_of_length_le (le_refl _)]
    · rw [Nat.min_eq_right (by omega)]
  · congr 1
    omega

theorem hashedArray_hashSum_paddedPrefix (c : List Byte) :
    hashedArray (hashSum (paddedPrefix c)) = paddedPrefix c := by
  have hlen := paddedPrefix_length c
  have h1 : (paddedPrefix c ++ md5Empty).take HASH_MAX = paddedPrefix c := by
    rw [List.take_append_of_le_length (le_of_eq hlen.symm)]
    exact List.take_of_length_le (le_of_eq hlen)
  simp only [hashedArray, hashSum, goCopy, List.length_replicate, List.drop_replicate, h1]
  rw [List.take_of_length_le (le_of_eq hlen), hlen]
  simp

theorem Read_zeros (fd : File) :
    fd.Read (List.replicate HASH_MAX 0) =
      match fd.content with
      | none => (List.replicate HASH_MAX 0, true)
      | some c => if c = [] then (List.replicate HASH_MAX 0, true) else (paddedPrefix c, false) := by
  have hpos := HASH_MAX_pos
  unfold File.Read
  cases hc : fd.content with
  | none => rfl
  | some c =>
    simp only [List.length_replicate, goCopy_zeros, List.length_eq_zero]
    rw [if_neg (by omega)]

theorem hashFile_unopenable (w : World) (filename : String) (h : w.osOpen filename = none) :
    hashFile w filename = .error ("Skipping: \"" ++ filename ++ "\", unable to open.") := by
  simp [hashFile, h]

theorem hashFile_faulty (w : World) (filename : String) (fd : File)
    (h : w.osOpen filename = some fd) (hc : fd.content = none) :
    hashFile w filename =
      .error ("Skipping: \"%!(EXTRA string=" ++ filename ++ ", string=\", unable to read.)") := by
  simp [hashFile, h, Read_zeros, hc]

theorem hashFile_empty (w : World) (filename : String) (fd : File)
    (h : w.osOpen filename = some fd) (hc : fd.content = some []) :
    hashFile w filename =
      .error ("Skipping: \"%!(EXTRA string=" ++ filename ++ ", string=\", unable to read.)") := by
  simp [hashFile, h, Read_zeros, hc]

theorem hashFile_nonempty (w : World) (filename : String) (fd : File) (c : List Byte)
    (h : w.osOpen filename = some fd) (hc : fd.content = some c) (hne : c ≠ []) :
    hashFile w filename = .ok (hashSum (paddedPrefix c)) := by
  simp [hashFile, h, Read_zeros, hc, hne]

theorem hashFile_ok_iff (w : World) (filename : String) (r : List Byte) :
    hashFile w filename = .ok r ↔
      ∃ fd c, w.osOpen filename = some fd ∧ fd.content = some c ∧ c ≠ [] ∧
        r = hashSum (paddedPrefix c) := by
  constructor
  · intro h
    cases ho : w.osOpen filename with
    | none => rw [hashFile_unopenable w filename ho] at h; cases h
    | some fd =>
      cases hc : fd.content with
      | none => rw [hashFile_faulty w filename fd ho hc] at h; cases h
      | some c =>
        by_cases hne : c = []
        · subst hne
          rw [hashFile_empty w filename fd ho hc] at h; cases h
        · rw [hashFile_nonempty w filename fd c ho hc hne] at h
          cases h
          exact ⟨fd, c, rfl, hc, hne, rfl⟩
  · rintro ⟨fd, c, ho, hc, hne, rfl⟩
    exact hashFile_nonempty w filename fd c ho hc hne

theorem hashKeyOf_eq_some_iff (w : World) (filename : String) (k : HashKey) :
    hashKeyOf w filename = some k ↔
      ∃ fd c, w.osOpen filename = some fd ∧ fd.content = some c ∧ c ≠ [] ∧
        k = paddedPrefix c := by
  unfold hashKeyOf
  constructor
  · intro h
    cases hf : hashFile w filename with
    | error e => rw [hf] at h; cases h
    | ok r =>
      rw [hf] at h
      obtain ⟨fd, c, ho, hc, hne, rfl⟩ := (hashFile_ok_iff w filename r).mp hf
      refine ⟨fd, c, ho, hc, hne, ?_⟩
      simp only [hashedArray_hashSum_paddedPrefix] at h
      cases h; rfl
  · rintro ⟨fd, c, ho, hc, hne, rfl⟩
    rw [hashFile_nonempty w filename fd c ho hc hne]
    simp [hashedArray_hashSum_paddedPrefix]

/-! ## The hashing loops -/

theorem hashStep_calls (w : World) (st : HashState) (f : String) :
    (hashStep w st f).calls = st.calls ++ [f] := by
  unfold hashStep
  cases hashFile w f <;> rfl

theorem hashStep_index (w : World) (st : HashState) (f : String) (k : HashKey) :
    mapIndex (hashStep w st f).hashing k =
      mapIndex st.hashing k ++ (if hashKeyOf w f = some k then [f] else []) := by
  unfold hashStep hashKeyOf
  cases hashFile w f with
  | error e => simp
  | ok r => simp [mapIndex_mapAppend]

theorem hashStep_nodup (w : World) (st : HashState) (f : String)
    (h : (st.hashing.map Prod.fst).Nodup) :
    ((hashStep w st f).hashing.map Prod.fst).Nodup := by
  unfold hashStep
  cases hashFile w f with
  | error e => exact h
  | ok r => exact nodup_keys_mapAppend _ _ _ h

theorem foldl_hashStep_calls (w : World) (fs : List String) (st : HashState) :
    (fs.foldl (hashStep w) st).calls = st.calls ++ fs := by
  induction fs generalizing st with
  | nil => simp
  | cons f rest ih => simp [ih, hashStep_calls]

theorem foldl_hashStep_index (w : World) (fs : List String) (st : HashState) (k : HashKey) :
    mapIndex (fs.foldl (hashStep w) st).hashing k =
      mapIndex st.hashing k ++ fs.filter (fun f => hashKeyOf w f = some k) := by
  induction fs generalizing st with
  | nil => simp
  | cons f rest ih =>
    simp only [List.foldl_cons, ih, hashStep_index]
    by_cases h : hashKeyOf w f = some k <;> simp [h, List.filter_cons]

theorem foldl_hashStep_nodup (w : World) (fs : List String) (st : HashState)
    (h : (st.hashing.map Prod.fst).Nodup) :
    ((fs.foldl (hashStep w) st).hashing.map Prod.fst).Nodup := by
  induction fs generalizing st with
  | nil => exact h
  | cons f rest ih => exact ih _ (hashStep_nodup w st f h)

theorem hashAll_calls (w : World) (visited : List (Int × List String)) (st : HashState) :
    (hashAll w visited st).calls = st.calls ++ candidates visited := by
  induction visited generalizing st with
  | nil => simp [hashAll, candidates]
  | cons e rest ih =>
    have ih' := ih (hashBucket w st e.2)
    unfold hashAll at ih' ⊢
    rw [List.foldl_cons, ih']
    unfold hashBucket
    by_cases h : e.2.length < 2
    · simp [h, candidates]
    · simp [h, candidates, foldl_hashStep_calls]

theorem hashAll_index (w : World) (visited : List (Int × List String)) (st : HashState)
    (k : HashKey) :
    mapIndex (hashAll w visited st).hashing k =
      mapIndex st.hashing k ++ (candidates visited).filter (fun f => hashKeyOf w f = some k) := by
  induction visited generalizing st with
  | nil => simp [hashAll, candidates]
  | cons e rest ih =>
    have ih' := ih (hashBucket w st e.2)
    unfold hashAll at ih' ⊢
    rw [List.foldl_cons, ih']
    unfold hashBucket
    by_cases h : e.2.length < 2
    · simp [h, candidates]
    · simp [h, candidates, foldl_hashStep_index]

theorem hashAll_nodup (w : World) (visited : List (Int × List String)) (st : HashState)
    (h : (st.hashing.map Prod.fst).Nodup) :
    ((hashAll w visited st).hashing.map Prod.fst).Nodup := by
  induction visited generalizing st with
  | nil => exact h
  | cons e rest ih =>
    have ih' := ih (hashBucket w st e.2)
    unfold hashAll at ih' ⊢
    rw [List.foldl_cons]
    apply ih'
    unfold hashBucket
    by_cases hl : e.2.length < 2
    · simpa [hl] using h
    · simpa [hl] using foldl_hashStep_nodup w e.2 st h

theorem hashed_calls (w : World) (args : List String) :
    (hashed w args).calls = candidates (w.rangeSizes (scanned w args).filesizes) := by
  simp [hashed, hashAll_calls]

theorem hashed_index (w : World) (args : List String) (k : HashKey) :
    mapIndex (hashed w args).hashing k =
      (candidates (w.rangeSizes (scanned w args).filesizes)).filter
        (fun f => hashKeyOf w f = some k) := by
  simp [hashed, hashAll_index, mapIndex]

theorem hashed_nodup (w : World) (args : List String) :
    ((hashed w args).hashing.map Prod.fst).Nodup := by
  unfold hashed
  exact hashAll_nodup w _ _ (by simp)

/-! ## The report -/

theorem foldl_reportStep (visited : List (List String)) (st : ReportState) :
    visited.foldl reportStep st =
      { stdout := st.stdout ++
          (visited.filter (fun g => 2 ≤ g.length)).map (fun g => printGroup g.length g)
        totalcount := st.totalcount + (visited.filter (fun g => 2 ≤ g.length)).length
        printed := st.printed ++ visited.filter (fun g => 2 ≤ g.length) } := by
  induction visited generalizing st with
  | nil => simp
  | cons g rest ih =>
    rw [List.foldl_cons, ih]
    unfold reportStep
    by_cases h : g.length < 2
    · have h' : ¬ 2 ≤ g.length := by omega
      simp [h, h', List.filter_cons]
    · have h' : 2 ≤ g.length := by omega
      simp [h, h', List.filter_cons]
      omega

theorem report_printed (visited : List (List String)) :
    (report visited).printed = visited.filter (fun g => 2 ≤ g.length) := by
  unfold report
  rw [foldl_reportStep]
  by_cases h : (visited.filter (fun g => 2 ≤ g.length)).length = 0 <;> simp [h]

theorem rangeSizes_scanned_nil (w : World) : w.rangeSizes (scanned w []).filesizes = [] := by
  have hr := w.rangeSizes_perm (scanned w []).filesizes
  have hs : (scanned w []).filesizes = [] := rfl
  rw [hs] at hr ⊢
  exact List.Perm.eq_nil hr

theorem hashed_nil_hashing (w : World) : (hashed w []).hashing = [] := by
  unfold hashed
  rw [rangeSizes_scanned_nil]
  rfl

theorem main_groups (w : World) (args : List String) :
    (main w args).groups =
      ((w.rangeHashes (hashed w args).hashing).map Prod.snd).filter (fun g => 2 ≤ g.length) := by
  unfold main
  by_cases h : args.length = 0
  · have h0 : args = [] := List.length_eq_zero.mp h
    subst h0
    have hp := w.rangeHashes_perm (hashed w []).hashing
    rw [hashed_nil_hashing] at hp ⊢
    rw [List.Perm.eq_nil hp]
    simp
  · simp only [h, if_false]
    exact report_printed _

theorem main_calls (w : World) (args : List String) :
    (main w args).calls = candidates (w.rangeSizes (scanned w args).filesizes) := by
  unfold main
  by_cases h : args.length = 0
  · have h0 : args = [] := List.length_eq_zero.mp h
    subst h0
    rw [rangeSizes_scanned_nil]
    simp [candidates]
  · simp only [h, if_false]
    exact hashed_calls w args

/-- A printed group is the bucket of its key: the candidates that hash to it. -/
theorem mem_groups_iff (w : World) (args : List String) (g : List String) :
    g ∈ (main w args).groups ↔
      2 ≤ g.length ∧ ∃ k, g = (main w args).calls.filter (fun f => hashKeyOf w f = some k) := by
  rw [main_groups, main_calls]
  constructor
  · intro h
    obtain ⟨hmem, hlen⟩ := List.mem_filter.mp h
    obtain ⟨⟨k, g'⟩, hkg, rfl⟩ := List.mem_map.mp hmem
    have hkg' : (k, g') ∈ (hashed w args).hashing :=
      (w.rangeHashes_perm _).mem_iff.mp hkg
    have := mapIndex_of_mem _ k g' (hashed_nodup w args) hkg'
    rw [hashed_index] at this
    exact ⟨by simpa using hlen, k, this.symm⟩
  · rintro ⟨hlen, k, rfl⟩
    rw [← hashed_index] at hlen ⊢
    apply List.mem_filter.mpr
    refine ⟨?_, by simpa using hlen⟩
    have hne : mapIndex (hashed w args).hashing k ≠ [] := by
      intro h0; rw [h0] at hlen; simp at hlen
    have := mem_of_mapIndex_ne_nil _ k hne
    exact List.mem_map.mpr ⟨_, (w.rangeHashes_perm _).mem_iff.mpr this, rfl⟩

/-! ## The loop over the arguments -/

theorem stringInSlice_iff (obj : String) (slice : List String) :
    stringInSlice obj slice = true ↔ obj ∈ slice := by
  induction slice with
  | nil => simp [stringInSlice]
  | cons e rest ih =>
    by_cases h : e = obj
    · simp [stringInSlice, h]
    · have h' : ¬ obj = e := fun h' => h h'.symm
      simp [stringInSlice, h, h', ih]

theorem scanStep_seen (w : World) (st : ScanState) (r : String)
    (h : stringInSlice r st.dirnames = true) : scanStep w st r = st := by
  simp [scanStep, h]

theorem scanStep_filesizes (w : World) (st : ScanState) (r : String)
    (h : stringInSlice r st.dirnames = false) :
    (scanStep w st r).filesizes =
      if validRoot w r then parsePath w r st.filesizes else st.filesizes := by
  unfold scanStep validRoot
  simp only [h, Bool.false_eq_true, if_false]
  cases w.osOpen r with
  | none => simp
  | some file =>
    cases hs : file.stat with
    | none => simp [hs]
    | some isDir => cases isDir <;> simp [hs]

theorem scanStep_dirnames (w : World) (st : ScanState) (r : String)
    (h : stringInSlice r st.dirnames = false) :
    (scanStep w st r).dirnames = st.dirnames ++ [r] := by
  unfold scanStep
  simp only [h, Bool.false_eq_true, if_false]
  cases w.osOpen r with
  | none => simp
  | some file =>
    cases hs : file.stat with
    | none => simp [hs]
    | some isDir => cases isDir <;> simp [hs]

theorem scanStep_errors (w : World) (st : ScanState) (r : String)
    (h : stringInSlice r st.dirnames = false) :
    (scanStep w st r).errors = (st.errors || !validRoot w r) := by
  unfold scanStep validRoot
  simp only [h, Bool.false_eq_true, if_false]
  cases w.osOpen r with
  | none => simp
  | some file =>
    cases hs : file.stat with
    | none => simp [hs]
    | some isDir => cases isDir <;> simp [hs]

theorem scanRoots_filesizes (w : World) (args : List String) (st : ScanState) :
    (scanRoots w args st).filesizes =
      (walkFrom w st.dirnames args).foldl (fun m e => mapAppend m e.2 e.1) st.filesizes := by
  induction args generalizing st with
  | nil => simp [scanRoots, walkFrom]
  | cons r rest ih =>
    have ih' := ih (scanStep w st r)
    unfold scanRoots at ih' ⊢
    rw [List.foldl_cons, ih']
    cases h : stringInSlice r st.dirnames with
    | true => simp [walkFrom, h, scanStep_seen w st r h]
    | false =>
      rw [scanStep_dirnames w st r h, scanStep_filesizes w st r h]
      by_cases hv : validRoot w r = true
      · simp [walkFrom, h, hv, parsePath_eq_foldl]
      · simp [walkFrom, h, hv]

theorem scanned_index (w : World) (args : List String) (s : Int) :
    mapIndex (scanned w args).filesizes s =
      ((walkFrom w [] args).filter (fun e => e.2 = s)).map Prod.fst := by
  unfold scanned
  rw [scanRoots_filesizes, mapIndex_foldl_mapAppend]
  simp [scanInit, mapIndex]

theorem scanRoots_errors_mono (w : World) (args : List String) (st : ScanState)
    (h : st.errors = true) : (scanRoots w args st).errors = true := by
  induction args generalizing st with
  | nil => simpa [scanRoots] using h
  | cons r rest ih =>
    have ih' := ih (scanStep w st r)
    unfold scanRoots at ih' ⊢
    rw [List.foldl_cons]
    apply ih'
    cases hs : stringInSlice r st.dirnames with
    | true => rw [scanStep_seen w st r hs]; exact h
    | false => rw [scanStep_errors w st r hs, h]; rfl

theorem scanRoots_errors_of_invalid (w : World) (args : List String) (st : ScanState)
    (r : String) (hr : r ∈ args) (hseen : r ∉ st.dirnames) (hbad : validRoot w r = false) :
    (scanRoots w args st).errors = true := by
  induction args generalizing st with
  | nil => simp at hr
  | cons a rest ih =>
    have ih' := ih (scanStep w st a)
    unfold scanRoots at ih' ⊢
    rw [List.foldl_cons]
    cases hs : stringInSlice a st.dirnames with
    | true =>
      rw [scanStep_seen w st a hs]
      have hne : r ≠ a := by
        intro h; subst h
        exact hseen ((stringInSlice_iff _ _).mp hs)
      have := ih st (by simpa [hne] using hr) hseen
      unfold scanRoots at this
      exact this
    | false =>
      by_cases hra : r = a
      · subst hra
        have := scanRoots_errors_mono w rest (scanStep w st r)
          (by rw [scanStep_errors w st r hs, hbad]; simp)
        unfold scanRoots at this
        exact this
      · apply ih'
        · simpa [hra] using hr
        · rw [scanStep_dirnames w st a hs]
          simp [hseen, hra]

/-- Dropping an invalid root from the arguments leaves the walk unchanged. -/
theorem walkFrom_filter_invalid (w : World) (r : String) (hbad : validRoot w r = false)
    (args : List String) :
    ∀ seen seen' : List String, (∀ x, x ≠ r → (x ∈ seen ↔ x ∈ seen')) →
      walkFrom w seen args = walkFrom w seen' (args.filter (fun x => x ≠ r)) := by
  induction args with
  | nil => intro seen seen' _; simp [walkFrom]
  | cons a rest ih =>
    intro seen seen' hagree
    by_cases har : a = r
    · subst har
      have hfilter : (a :: rest).filter (fun x => x ≠ a) = rest.filter (fun x => x ≠ a) := by
        simp [List.filter_cons]
      rw [hfilter]
      cases hs : stringInSlice a seen with
      | true =>
        simp only [walkFrom, hs, if_true]
        exact ih seen seen' hagree
      | false =>
        simp only [walkFrom, hs, hbad, Bool.false_eq_true, if_false, List.nil_append]
        apply ih
        intro x hx
        simp [hagree x hx, hx]
    · have hfilter : (a :: rest).filter (fun x => x ≠ r) = a :: rest.filter (fun x => x ≠ r) := by
        simp [List.filter_cons, har]
      rw [hfilter]
      have hmem : stringInSlice a seen = stringInSlice a seen' := by
        rw [Bool.eq_iff_iff, stringInSlice_iff, stringInSlice_iff]
        exact hagree a har
      cases hs : stringInSlice a seen with
      | true =>
        rw [hs] at hmem
        simp only [walkFrom, hs, ← hmem, if_true]
        exact ih seen seen' hagree
      | false =>
        rw [hs] at hmem
        simp only [walkFrom, hs, ← hmem, Bool.false_eq_true, if_false]
        congr 1
        apply ih
        intro x hx
        simp [hagree x hx]

/-! ## Two roots -/

theorem subperm_walkFrom (w : World) (r : String) (hv : validRoot w r = true)
    (args : List String) :
    ∀ seen : List String, r ∈ args → r ∉ seen →
      (filesUnder w r).Subperm (walkFrom w seen args) := by
  induction args with
  | nil => intro seen hr; simp at hr
  | cons a rest ih =>
    intro seen hr hseen
    cases hs : stringInSlice a seen with
    | true =>
      have hne : r ≠ a := by
        intro h; subst h
        exact hseen ((stringInSlice_iff _ _).mp hs)
      simp only [walkFrom, hs, if_true]
      exact ih seen (by simpa [hne] using hr) hseen
    | false =>
      simp only [walkFrom, hs, Bool.false_eq_true, if_false]
      by_cases hra : r = a
      · subst hra
        rw [hv, if_pos rfl]
        exact (List.sublist_append_left _ _).subperm
      · have := ih (seen ++ [a]) (by simpa [hra] using hr) (by simp [hseen, hra])
        exact this.trans (List.sublist_append_right _ _).subperm

theorem subperm_walkFrom_two (w : World) (r₁ r₂ : String) (hne : r₁ ≠ r₂)
    (hv₁ : validRoot w r₁ = true) (hv₂ : validRoot w r₂ = true) (args : List String) :
    ∀ seen : List String, r₁ ∈ args → r₂ ∈ args → r₁ ∉ seen → r₂ ∉ seen →
      (filesUnder w r₁ ++ filesUnder w r₂).Subperm (walkFrom w seen args) := by
  induction args with
  | nil => intro seen hr; simp at hr
  | cons a rest ih =>
    intro seen hr₁ hr₂ hs₁ hs₂
    cases hs : stringInSlice a seen with
    | true =>
      have hmem := (stringInSlice_iff _ _).mp hs
      have hne₁ : r₁ ≠ a := by intro h; subst h; exact hs₁ hmem
      have hne₂ : r₂ ≠ a := by intro h; subst h; exact hs₂ hmem
      simp only [walkFrom, hs, if_true]
      exact ih seen (by simpa [hne₁] using hr₁) (by simpa [hne₂] using hr₂) hs₁ hs₂
    | false =>
      simp only [walkFrom, hs, Bool.false_eq_true, if_false]
      by_cases h₁ : r₁ = a
      · subst h₁
        rw [hv₁, if_pos rfl]
        have h := subperm_walkFrom w r₂ hv₂ rest (seen ++ [r₁])
          (by simpa [Ne.symm hne] using hr₂) (by simp [hs₂, Ne.symm hne])
        exact (List.subperm_append_left _).mpr h
      · by_cases h₂ : r₂ = a
        · subst h₂
          rw [hv₂, if_pos rfl]
          have h := subperm_walkFrom w r₁ hv₁ rest (seen ++ [r₂])
            (by simpa [hne] using hr₁) (by simp [hs₁, hne])
          exact (List.perm_append_comm.subperm).trans ((List.subperm_append_left _).mpr h)
        · have := ih (seen ++ [a]) (by simpa [h₁] using hr₁) (by simpa [h₂] using hr₂)
            (by simp [hs₁, h₁]) (by simp [hs₂, h₂])
          exact this.trans (List.sublist_append_right _ _).subperm

theorem sublist_candidates (visited : List (Int × List String)) (e : Int × List String)
    (he : e ∈ visited) (hlen : 2 ≤ e.2.length) : e.2.Sublist (candidates visited) := by
  induction visited with
  | nil => simp at he
  | cons a rest ih =>
    rcases List.mem_cons.mp he with rfl | hrest
    · have : ¬ e.2.length < 2 := by omega
      simp only [candidates, this, if_false]
      exact List.sublist_append_left _ _
    · simp only [candidates]
      exact (ih hrest).trans (List.sublist_append_right _ _)

theorem mem_candidates_iff (visited : List (Int × List String)) (p : String) :
    p ∈ candidates visited ↔ ∃ e ∈ visited, 2 ≤ e.2.length ∧ p ∈ e.2 := by
  induction visited with
  | nil => simp [candidates]
  | cons a rest ih =>
    simp only [candidates, List.mem_append, ih, List.mem_cons, exists_eq_or_imp]
    by_cases h : a.2.length < 2
    · have : ¬ 2 ≤ a.2.length := by omega
      simp [h, this]
    · have : 2 ≤ a.2.length := by omega
      simp [h, this]

/-- Two hashed entries with one key are printed in one group. -/
theorem group_of_subperm_calls (w : World) (args : List String) (p q : String) (k : HashKey)
    (hsub : [p, q].Subperm (main w args).calls)
    (hp : hashKeyOf w p = some k) (hq : hashKeyOf w q = some k) :
    ∃ g ∈ (main w args).groups, [p, q].Subperm g := by
  refine ⟨(main w args).calls.filter (fun f => hashKeyOf w f = some k), ?_, ?_⟩
  · rw [mem_groups_iff]
    refine ⟨?_, k, rfl⟩
    have := (List.Subperm.filter (fun f => decide (hashKeyOf w f = some k)) hsub).length_le
    simpa [List.filter_cons, hp, hq] using this
  · have := List.Subperm.filter (fun f => decide (hashKeyOf w f = some k)) hsub
    simpa [List.filter_cons, hp, hq] using this

/-! ## The group line -/

theorem quote_join (names : List String) (h : names ≠ []) :
    "\"" ++ stringsJoin names "\", \"" ++ "\"" =
      stringsJoin (names.map (fun p => "\"" ++ p ++ "\"")) ", " := by
  induction names with
  | nil => exact absurd rfl h
  | cons a rest ih =>
    cases rest with
    | nil => simp [stringsJoin]
    | cons b rest' =>
      have ih' := ih (by simp)
      simp only [List.map_cons] at ih' ⊢
      simp only [stringsJoin]
      rw [← ih']
      have hsep : ("\", \"" : String) = "\"" ++ ", " ++ "\"" := by decide
      rw [hsep]
      simp only [String.append_assoc]

theorem printGroup_eq_groupLine (names : List String) (h : names ≠ []) :
    printGroup names.length names = groupLine names := by
  unfold printGroup groupLine
  rw [← quote_join names h]
  have hsep : ("] \"" : String) = "] " ++ "\"" := by decide
  rw [hsep]
  simp only [String.append_assoc]

/-! ## Padded prefixes of short contents -/

theorem paddedPrefix_cons (a : Byte) (t : List Byte) :
    ∃ rest, paddedPrefix (a :: t) = a :: rest := by
  have hpos := HASH_MAX_pos
  unfold paddedPrefix
  obtain ⟨n, hn⟩ : ∃ n, min (a :: t).length HASH_MAX = n + 1 :=
    ⟨min (a :: t).length HASH_MAX - 1, by simp only [List.length_cons]; omega⟩
  simp only [hn, List.take_succ_cons, List.cons_append]
  exact ⟨_, rfl⟩

theorem paddedPrefix_ne_of_head (a b : Byte) (s t : List Byte) (h : a ≠ b) :
    paddedPrefix (a :: s) ≠ paddedPrefix (b :: t) := by
  obtain ⟨r₁, h₁⟩ := paddedPrefix_cons a s
  obtain ⟨r₂, h₂⟩ := paddedPrefix_cons b t
  rw [h₁, h₂]
  intro heq
  exact h (List.cons.inj heq).1

theorem paddedPrefix_of_short (c : List Byte) (h : c.length ≤ HASH_MAX) :
    paddedPrefix c = c ++ List.replicate (HASH_MAX - c.length) 0 := by
  unfold paddedPrefix
  simp only [Nat.min_eq_left h, List.take_length]

theorem paddedPrefix_append_zero (c : List Byte) (h : c.length < HASH_MAX) :
    paddedPrefix (c ++ [0]) = paddedPrefix c := by
  rw [paddedPrefix_of_short c (by omega),
    paddedPrefix_of_short (c ++ [0]) (by simp only [List.length_append, List.length_singleton]; omega)]
  obtain ⟨n, hn⟩ : ∃ n, HASH_MAX - c.length = n + 1 := ⟨HASH_MAX - c.length - 1, by omega⟩
  have hn' : HASH_MAX - (c ++ [0]).length = n := by
    simp only [List.length_append, List.length_singleton]; omega
  rw [hn, hn', List.replicate_succ]
  simp

theorem paddedPrefix_one_zero : paddedPrefix [1, 0] = paddedPrefix [1] :=
  paddedPrefix_append_zero [1] (by unfold HASH_MAX; norm_num)

/-! ## The outcome of main -/

theorem main_stdout (w : World) (args : List String) (h : args ≠ []) :
    (main w args).stdout =
      (report ((w.rangeHashes (hashed w args).hashing).map Prod.snd)).stdout := by
  have h0 : ¬ args.length = 0 := fun h0 => h (List.length_eq_zero.mp h0)
  simp [main, h0]

theorem main_stderr (w : World) (args : List String) (h : args ≠ []) :
    (main w args).stderr = (hashed w args).stderr := by
  have h0 : ¬ args.length = 0 := fun h0 => h (List.length_eq_zero.mp h0)
  simp [main, h0]

theorem main_exitCode (w : World) (args : List String) (h : args ≠ []) :
    (main w args).exitCode = if (scanned w args).errors then 1 else 0 := by
  have h0 : ¬ args.length = 0 := fun h0 => h (List.length_eq_zero.mp h0)
  simp [main, h0]

/-! ## Stepping through the hashing loops -/

theorem mapAppend_nil {κ : Type} [DecidableEq κ] (k : κ) (x : String) :
    mapAppend ([] : GoMap κ) k x = [(k, [x])] := rfl

theorem mapAppend_cons_self {κ : Type} [DecidableEq κ] (m : GoMap κ) (k : κ)
    (v : List String) (x : String) :
    mapAppend ((k, v) :: m) k x = (k, v ++ [x]) :: m := by
  simp [mapAppend, mapAssign, mapIndex]

theorem mapAppend_cons_of_ne {κ : Type} [DecidableEq κ] (m : GoMap κ) (k k' : κ)
    (v : List String) (x : String) (h : k' ≠ k) :
    mapAppend ((k', v) :: m) k x = (k', v) :: mapAppend m k x := by
  simp [mapAppend, mapAssign, mapIndex, h]

theorem hashStep_ok (w : World) (st : HashState) (f : String) (c : List Byte)
    (h : hashFile w f = .ok (hashSum (paddedPrefix c))) :
    hashStep w st f =
      { hashing := mapAppend st.hashing (paddedPrefix c) f, stderr := st.stderr,
        calls := st.calls ++ [f] } := by
  simp [hashStep, h, hashedArray_hashSum_paddedPrefix]

theorem hashStep_error (w : World) (st : HashState) (f : String) (e : String)
    (h : hashFile w f = .error e) :
    hashStep w st f =
      { hashing := st.hashing, stderr := st.stderr ++ [log [e]], calls := st.calls ++ [f] } := by
  simp [hashStep, h]

theorem hashAll_nil (w : World) (st : HashState) : hashAll w [] st = st := rfl

theorem hashAll_cons_small (w : World) (e : Int × List String)
    (rest : List (Int × List String)) (st : HashState) (h : e.2.length < 2) :
    hashAll w (e :: rest) st = hashAll w rest st := by
  simp [hashAll, hashBucket, h]

theorem hashAll_cons_pair (w : World) (s : Int) (p q : String)
    (rest : List (Int × List String)) (st : HashState) :
    hashAll w ((s, [p, q]) :: rest) st =
      hashAll w rest (hashStep w (hashStep w st p) q) := by
  simp [hashAll, hashBucket]

theorem twoSizes_hashed :
    (hashed twoSizesWorld ["r"]).hashing =
      [(paddedPrefix [1], ["r/a", "r/c"]), (paddedPrefix [2], ["r/b"]),
        (paddedPrefix [3, 3], ["r/d"])] := by
  have hscan : (scanned twoSizesWorld ["r"]).filesizes =
      [(1, ["r/a", "r/b"]), (2, ["r/c", "r/d"])] := by decide
  have hrange : ∀ m, twoSizesWorld.rangeSizes m = m := fun _ => rfl
  have ha : hashFile twoSizesWorld "r/a" = .ok (hashSum (paddedPrefix [1])) :=
    hashFile_nonempty _ _ ⟨some false, some [1]⟩ _ rfl rfl (by simp)
  have hb : hashFile twoSizesWorld "r/b" = .ok (hashSum (paddedPrefix [2])) :=
    hashFile_nonempty _ _ ⟨some false, some [2]⟩ _ rfl rfl (by simp)
  have hc : hashFile twoSizesWorld "r/c" = .ok (hashSum (paddedPrefix [1])) := by
    rw [← paddedPrefix_one_zero]
    exact hashFile_nonempty _ _ ⟨some false, some [1, 0]⟩ _ rfl rfl (by simp)
  have hd : hashFile twoSizesWorld "r/d" = .ok (hashSum (paddedPrefix [3, 3])) :=
    hashFile_nonempty _ _ ⟨some false, some [3, 3]⟩ _ rfl rfl (by simp)
  have h12 : paddedPrefix [1] ≠ paddedPrefix [2] := paddedPrefix_ne_of_head 1 2 [] [] (by decide)
  have h13 : paddedPrefix [1] ≠ paddedPrefix [3, 3] :=
    paddedPrefix_ne_of_head 1 3 [] [3] (by decide)
  have h23 : paddedPrefix [2] ≠ paddedPrefix [3, 3] :=
    paddedPrefix_ne_of_head 2 3 [] [3] (by decide)
  unfold hashed
  rw [hscan, hrange, hashAll_cons_pair, hashAll_cons_pair, hashAll_nil,
    hashStep_ok _ _ _ _ ha, hashStep_ok _ _ _ _ hb, hashStep_ok _ _ _ _ hc,
    hashStep_ok _ _ _ _ hd]
  simp only [mapAppend_nil, mapAppend_cons_of_ne _ _ _ _ _ h12, mapAppend_cons_self,
    mapAppend_cons_of_ne _ _ _ _ _ h13, mapAppend_cons_of_ne _ _ _ _ _ h23, List.nil_append,
    List.cons_append, List.singleton_append]

/-! ## More on the loops -/

theorem hashStep_hashing_congr (w : World) (st st' : HashState) (f : String)
    (h : st.hashing = st'.hashing) :
    (hashStep w st f).hashing = (hashStep w st' f).hashing := by
  unfold hashStep
  cases hashFile w f with
  | error e => simpa using h
  | ok r => simp [h]

theorem foldl_hashStep_hashing_congr (w : World) (fs : List String) (st st' : HashState)
    (h : st.hashing = st'.hashing) :
    (fs.foldl (hashStep w) st).hashing = (fs.foldl (hashStep w) st').hashing := by
  induction fs generalizing st st' with
  | nil => simpa using h
  | cons f rest ih => exact ih _ _ (hashStep_hashing_congr w st st' f h)

theorem hashAll_hashing_congr (w : World) (visited : List (Int × List String))
    (st st' : HashState) (h : st.hashing = st'.hashing) :
    (hashAll w visited st).hashing = (hashAll w visited st').hashing := by
  induction visited generalizing st st' with
  | nil => simpa [hashAll] using h
  | cons e rest ih =>
    have ih' := ih (hashBucket w st e.2) (hashBucket w st' e.2)
    unfold hashAll at ih' ⊢
    rw [List.foldl_cons, List.foldl_cons]
    apply ih'
    unfold hashBucket
    by_cases hl : e.2.length < 2
    · simpa [hl] using h
    · simpa [hl] using foldl_hashStep_hashing_congr w e.2 st st' h

theorem hashed_hashing_congr (w : World) (args args' : List String)
    (h : (scanned w args).filesizes = (scanned w args').filesizes) :
    (hashed w args).hashing = (hashed w args').hashing := by
  unfold hashed
  rw [h]
  exact hashAll_hashing_congr w _ _ _ rfl

/-- The line of every bucket with at least two paths is written by the report. -/
theorem groupLine_mem_report (visited : List (List String)) (g : List String)
    (hg : g ∈ visited) (hlen : 2 ≤ g.length) : groupLine g ∈ (report visited).stdout := by
  have hne : g ≠ [] := by
    intro h0; subst h0; simp at hlen
  have hmem : groupLine g ∈
      (visited.filter (fun g => 2 ≤ g.length)).map (fun g => printGroup g.length g) := by
    rw [← printGroup_eq_groupLine g hne]
    exact List.mem_map.mpr ⟨g, List.mem_filter.mpr ⟨hg, by simpa using hlen⟩, rfl⟩
  unfold report
  rw [foldl_reportStep]
  by_cases h0 : (visited.filter (fun g => 2 ≤ g.length)).length = 0
  · rw [List.length_eq_zero.mp h0] at hmem
    simp at hmem
  · simp only [Nat.zero_add, h0, if_false]
    exact List.mem_append_right _ hmem

theorem groups_eq_nil_of_no_args (w : World) : (main w []).groups = [] := by
  simp [main]

/-- The line of every printed group is on standard output. -/
theorem groupLine_mem_stdout (w : World) (args : List String) (g : List String)
    (hg : g ∈ (main w args).groups) : groupLine g ∈ (main w args).stdout := by
  have hargs : args ≠ [] := by
    intro h0; subst h0
    rw [groups_eq_nil_of_no_args] at hg
    simp at hg
  rw [main_groups] at hg
  obtain ⟨hmem, hlen⟩ := List.mem_filter.mp hg
  rw [main_stdout w args hargs]
  exact groupLine_mem_report _ g hmem (by simpa using hlen)

theorem subperm_map {α β : Type} (f : α → β) {l₁ l₂ : List α} (h : l₁.Subperm l₂) :
    (l₁.map f).Subperm (l₂.map f) := by
  obtain ⟨l, hp, hs⟩ := h
  exact ⟨l.map f, hp.map f, hs.map f⟩

theorem mem_filesAmong_of_hasFile (join : String → String → String) (name : String)
    (size : Int) (dirname : String) :
    ∀ es : Entries, hasFile name size es = true →
      (join dirname name, size) ∈ filesAmong join es dirname
  | .nil, h => by simp [hasFile] at h
  | .file n s rest, h => by
    simp only [hasFile, Bool.or_eq_true, Bool.and_eq_true, beq_iff_eq] at h
    simp only [filesAmong, List.mem_cons]
    rcases h with ⟨rfl, rfl⟩ | h
    · exact Or.inl rfl
    · exact Or.inr (mem_filesAmong_of_hasFile join name size dirname rest h)
  | .dir n sub rest, h => by
    simp only [hasFile] at h
    simp only [filesAmong, List.mem_append]
    exact Or.inr (mem_filesAmong_of_hasFile join name size dirname rest h)

/-! ## The claims -/

/-- C1: two file entries `p` and `q` are printed by `main` in one duplicate
group (a slice handed to `Printf`, whose line is on standard output, holds
both) if and only if `hashFile` succeeded on both of them during the run (both
are among the entries `main` passed to `hashFile`, and each call returned a
slice) and their first 1 MiB of content, right-padded with zero bytes to 1 MiB,
is byte-identical. -/
theorem same_group_iff (w : World) (args : List String) (p q : String) :
    (∃ g ∈ (main w args).groups,
        groupLine g ∈ (main w args).stdout ∧ [p, q].Subperm g) ↔
      ([p, q].Subperm (main w args).calls ∧
        ∃ fp fq cp cq rp rq,
          w.osOpen p = some fp ∧ fp.content = some cp ∧
          w.osOpen q = some fq ∧ fq.content = some cq ∧
          hashFile w p = .ok rp ∧ hashFile w q = .ok rq ∧
          paddedPrefix cp = paddedPrefix cq) := by
  constructor
  · rintro ⟨g, hg, _, hsub⟩
    obtain ⟨_, k, rfl⟩ := (mem_groups_iff w args g).mp hg
    refine ⟨hsub.trans (List.filter_sublist _).subperm, ?_⟩
    have hp := (List.mem_filter.mp (hsub.subset (List.mem_cons_self p [q]))).2
    have hq := (List.mem_filter.mp
      (hsub.subset (List.mem_cons_of_mem p (List.mem_singleton_self q)))).2
    simp only [decide_eq_true_eq] at hp hq
    obtain ⟨fp, cp, hop, hcp, hnp, rfl⟩ := (hashKeyOf_eq_some_iff w p k).mp hp
    obtain ⟨fq, cq, hoq, hcq, hnq, hk⟩ := (hashKeyOf_eq_some_iff w q _).mp hq
    exact ⟨fp, fq, cp, cq, _, _, hop, hcp, hoq, hcq,
      hashFile_nonempty w p fp cp hop hcp hnp, hashFile_nonempty w q fq cq hoq hcq hnq, hk⟩
  · rintro ⟨hsub, fp, fq, cp, cq, rp, rq, hop, hcp, hoq, hcq, hrp, hrq, hk⟩
    obtain ⟨fp', cp', hop', hcp', hnp, _⟩ := (hashFile_ok_iff w p rp).mp hrp
    obtain ⟨fq', cq', hoq', hcq', hnq, _⟩ := (hashFile_ok_iff w q rq).mp hrq
    rw [hop] at hop'; cases hop'
    rw [hoq] at hoq'; cases hoq'
    rw [hcp] at hcp'; cases hcp'
    rw [hcq] at hcq'; cases hcq'
    obtain ⟨g, hg, hgsub⟩ := group_of_subperm_calls w args p q (paddedPrefix cp) hsub
      ((hashKeyOf_eq_some_iff w p _).mpr ⟨fp, cp, hop, hcp, hnp, rfl⟩)
      ((hashKeyOf_eq_some_iff w q _).mpr ⟨fq, cq, hoq, hcq, hnq, hk⟩)
    exact ⟨g, hg, groupLine_mem_stdout w args g hg, hgsub⟩

/-- C2, at the failing input: directory `r` holds `a` = 01 and `b` = 02 of one
byte and `c` = 01 00 and `d` = 03 03 of two bytes. The size buckets separate
`a` from `c`, yet `main` prints them as one duplicate group. -/
theorem different_sizes_share_group :
    (scanned twoSizesWorld ["r"]).filesizes = [(1, ["r/a", "r/b"]), (2, ["r/c", "r/d"])] ∧
    (main twoSizesWorld ["r"]).groups = [["r/a", "r/c"]] ∧
    (main twoSizesWorld ["r"]).stdout =
      ["The following files are duplicates of eachother:", "  [2] \"r/a\", \"r/c\""] := by
  have hrange : ∀ m, twoSizesWorld.rangeHashes m = m := fun _ => rfl
  refine ⟨by decide, ?_, ?_⟩
  · rw [main_groups, twoSizes_hashed, hrange]
    decide
  · rw [main_stdout _ _ (by simp), twoSizes_hashed, hrange]
    simp only [List.map_cons, List.map_nil]
    decide

/-- C3, refuted as stated: the file `A/x` of the specification's scenario
holds the 5 bytes `hello`, fewer than `HASH_MAX`; `hashFile` returns no error
for it, and `main` prints it in a duplicate group. -/
theorem hashFile_hello_succeeds :
    helloWorld.osOpen "A/x" = some ⟨some false, some helloBytes⟩ ∧
    helloBytes.length = 5 ∧ helloBytes.length < HASH_MAX ∧
    hashFile helloWorld "A/x" = .ok (hashSum (paddedPrefix helloBytes)) ∧
    (main helloWorld ["A", "B"]).groups = [["A/x", "A/y"]] := by
  have hx : hashFile helloWorld "A/x" = .ok (hashSum (paddedPrefix helloBytes)) :=
    hashFile_nonempty _ _ ⟨some false, some helloBytes⟩ _ rfl rfl (by decide)
  have hy : hashFile helloWorld "A/y" = .ok (hashSum (paddedPrefix helloBytes)) :=
    hashFile_nonempty _ _ ⟨some false, some helloBytes⟩ _ rfl rfl (by decide)
  refine ⟨rfl, rfl, by unfold HASH_MAX; decide, hx, ?_⟩
  have hscan : (scanned helloWorld ["A", "B"]).filesizes = [(5, ["A/x", "A/y"])] := by decide
  have hr₁ : ∀ m, helloWorld.rangeSizes m = m := fun _ => rfl
  have hr₂ : ∀ m, helloWorld.rangeHashes m = m := fun _ => rfl
  have hh : (hashed helloWorld ["A", "B"]).hashing =
      [(paddedPrefix helloBytes, ["A/x", "A/y"])] := by
    unfold hashed
    rw [hscan, hr₁, hashAll_cons_pair, hashAll_nil, hashStep_ok _ _ _ _ hx,
      hashStep_ok _ _ _ _ hy]
    simp only [mapAppend_nil, mapAppend_cons_self, List.singleton_append]
  rw [main_groups, hh, hr₂]
  decide

/-- C3, as amended: for an openable file shorter than `HASH_MAX` whose read
does not fail, `hashFile` returns an error exactly when the file is empty
(`Read` returns `0, io.EOF`): for a non-empty file, such as a 5-byte file, the
short read is no read error and `hashFile` returns a slice, and an empty file
is in no hash bucket and in no printed group of any run. -/
theorem hashFile_short_file (w : World) (filename : String) (fd : File) (c : List Byte)
    (ho : w.osOpen filename = some fd) (hc : fd.content = some c)
    (hlt : c.length < HASH_MAX) :
    ((∃ e, hashFile w filename = .error e) ↔ c = []) ∧
    (c ≠ [] → ∃ r, hashFile w filename = .ok r) ∧
    (c = [] → ∀ args : List String,
      (∀ e ∈ (hashed w args).hashing, filename ∉ e.2) ∧
      (∀ g ∈ (main w args).groups, filename ∉ g)) := by
  refine ⟨⟨?_, ?_⟩, ?_, ?_⟩
  · rintro ⟨e, he⟩
    by_contra hne
    rw [hashFile_nonempty w filename fd c ho hc hne] at he
    cases he
  · intro h0
    subst h0
    exact ⟨_, hashFile_empty w filename fd ho hc⟩
  · intro hne
    exact ⟨_, hashFile_nonempty w filename fd c ho hc hne⟩
  · intro h0 args
    subst h0
    have hkey : ∀ k, hashKeyOf w filename ≠ some k := by
      intro k hk
      obtain ⟨fd', c', ho', hc', hne, _⟩ := (hashKeyOf_eq_some_iff w filename k).mp hk
      rw [ho] at ho'; cases ho'
      rw [hc] at hc'; cases hc'
      exact hne rfl
    have hbucket : ∀ e ∈ (hashed w args).hashing, filename ∉ e.2 := by
      rintro ⟨k, v⟩ he hp
      have hv := mapIndex_of_mem _ k v (hashed_nodup w args) he
      rw [hashed_index] at hv
      rw [← hv] at hp
      have := (List.mem_filter.mp hp).2
      simp only [decide_eq_true_eq] at this
      exact hkey k this
    refine ⟨hbucket, ?_⟩
    intro g hg hp
    rw [main_groups] at hg
    obtain ⟨⟨k, v⟩, he, rfl⟩ := List.mem_map.mp (List.mem_filter.mp hg).1
    exact hbucket (k, v) ((w.rangeHashes_perm _).mem_iff.mp he) hp

/-- The amended C3 at the 5-byte file `A/x` of the specification's scenario
(no error) and at the empty file `r/a` (an error, and no group holds it). -/
theorem hashFile_short_file_witness :
    helloBytes.length < HASH_MAX ∧ helloBytes ≠ [] ∧
    (∃ r, hashFile helloWorld "A/x" = .ok r) ∧
    (∃ e, hashFile emptyFilesWorld "r/a" = .error e) ∧
    (∀ g ∈ (main emptyFilesWorld ["r"]).groups, "r/a" ∉ g) :=
  ⟨by unfold HASH_MAX; decide, by decide,
    (hashFile_short_file helloWorld "A/x" ⟨some false, some helloBytes⟩ helloBytes rfl rfl
      (by unfold HASH_MAX; decide)).2.1 (by decide),
    (hashFile_short_file emptyFilesWorld "r/a" ⟨some false, some []⟩ [] rfl rfl
      (by unfold HASH_MAX; decide)).1.mpr rfl,
    ((hashFile_short_file emptyFilesWorld "r/a" ⟨some false, some []⟩ [] rfl rfl
      (by unfold HASH_MAX; decide)).2.2 rfl ["r"]).2⟩

/-- C4, at the failing input: directory `r` holds two empty files. `main`
passes both to `hashFile`, both calls fail with a read error that is logged,
and the exit status is 0. -/
theorem hash_errors_exit_zero :
    (main emptyFilesWorld ["r"]).calls = ["r/a", "r/b"] ∧
    hashFile emptyFilesWorld "r/a" =
      .error "Skipping: \"%!(EXTRA string=r/a, string=\", unable to read.)" ∧
    hashFile emptyFilesWorld "r/b" =
      .error "Skipping: \"%!(EXTRA string=r/b, string=\", unable to read.)" ∧
    (main emptyFilesWorld ["r"]).stderr =
      ["[Skipping: \"%!(EXTRA string=r/a, string=\", unable to read.)]",
       "[Skipping: \"%!(EXTRA string=r/b, string=\", unable to read.)]"] ∧
    (main emptyFilesWorld ["r"]).exitCode = 0 := by
  have ha := hashFile_empty emptyFilesWorld "r/a" ⟨some false, some []⟩ rfl rfl
  have hb := hashFile_empty emptyFilesWorld "r/b" ⟨some false, some []⟩ rfl rfl
  have hscan : (scanned emptyFilesWorld ["r"]).filesizes = [(0, ["r/a", "r/b"])] := by decide
  have hserr : (scanned emptyFilesWorld ["r"]).stderr = [] := by decide
  have hr₁ : ∀ m, emptyFilesWorld.rangeSizes m = m := fun _ => rfl
  refine ⟨?_, ha, hb, ?_, ?_⟩
  · rw [main_calls, hscan, hr₁]
    decide
  · rw [main_stderr _ _ (by simp)]
    unfold hashed
    rw [hscan, hserr, hr₁, hashAll_cons_pair, hashAll_nil, hashStep_error _ _ _ _ ha,
      hashStep_error _ _ _ _ hb]
    decide
  · rw [main_exitCode _ _ (by simp)]
    decide

/-- C5: when `hashFile` succeeds on two files, the keys `main` derives from
the returned slices are equal only if (indeed, exactly if) the files' first
1 MiB of content, right-padded with zero bytes to 1 MiB, is identical. -/
theorem hash_key_eq_iff (w : World) (p q : String) (fp fq : File) (cp cq rp rq : List Byte)
    (hop : w.osOpen p = some fp) (hcp : fp.content = some cp)
    (hoq : w.osOpen q = some fq) (hcq : fq.content = some cq)
    (hrp : hashFile w p = .ok rp) (hrq : hashFile w q = .ok rq) :
    hashedArray rp = hashedArray rq ↔ paddedPrefix cp = paddedPrefix cq := by
  obtain ⟨fp', cp', hop', hcp', _, rfl⟩ := (hashFile_ok_iff w p rp).mp hrp
  obtain ⟨fq', cq', hoq', hcq', _, rfl⟩ := (hashFile_ok_iff w q rq).mp hrq
  rw [hop] at hop'; cases hop'
  rw [hoq] at hoq'; cases hoq'
  rw [hcp] at hcp'; cases hcp'
  rw [hcq] at hcq'; cases hcq'
  rw [hashedArray_hashSum_paddedPrefix, hashedArray_hashSum_paddedPrefix]

theorem hash_key_eq_iff_witness :
    hashFile twoSizesWorld "r/a" = .ok (hashSum (paddedPrefix [1])) ∧
    hashFile twoSizesWorld "r/b" = .ok (hashSum (paddedPrefix [2])) ∧
    (hashedArray (hashSum (paddedPrefix [1])) = hashedArray (hashSum (paddedPrefix [2])) ↔
      paddedPrefix [1] = paddedPrefix [2]) :=
  ⟨hashFile_nonempty _ _ ⟨some false, some [1]⟩ _ rfl rfl (by simp),
    hashFile_nonempty _ _ ⟨some false, some [2]⟩ _ rfl rfl (by simp),
    hash_key_eq_iff twoSizesWorld "r/a" "r/b" ⟨some false, some [1]⟩ ⟨some false, some [2]⟩
      [1] [2] _ _ rfl rfl rfl rfl
      (hashFile_nonempty _ _ ⟨some false, some [1]⟩ _ rfl rfl (by simp))
      (hashFile_nonempty _ _ ⟨some false, some [2]⟩ _ rfl rfl (by simp))⟩

/-- C6: a file all of whose size buckets have fewer than two members (its size
occurs once among the collected entries) is never passed to `hashFile`, is in
no hash bucket, and is in no printed group. -/
theorem unique_size_never_hashed (w : World) (args : List String) (p : String)
    (h : ∀ e ∈ (scanned w args).filesizes, p ∈ e.2 → e.2.length < 2) :
    p ∉ (main w args).calls ∧
    (∀ e ∈ (hashed w args).hashing, p ∉ e.2) ∧
    (∀ g ∈ (main w args).groups, p ∉ g) := by
  have hcand : p ∉ candidates (w.rangeSizes (scanned w args).filesizes) := by
    intro hmem
    obtain ⟨e, he, hlen, hp⟩ := (mem_candidates_iff _ p).mp hmem
    have := h e ((w.rangeSizes_perm _).mem_iff.mp he) hp
    omega
  have hbucket : ∀ e ∈ (hashed w args).hashing, p ∉ e.2 := by
    rintro ⟨k, v⟩ he hp
    have hv := mapIndex_of_mem _ k v (hashed_nodup w args) he
    rw [hashed_index] at hv
    rw [← hv] at hp
    exact hcand (List.mem_filter.mp hp).1
  refine ⟨by rw [main_calls]; exact hcand, hbucket, ?_⟩
  intro g hg hp
  rw [main_groups] at hg
  obtain ⟨⟨k, v⟩, he, rfl⟩ := List.mem_map.mp (List.mem_filter.mp hg).1
  exact hbucket (k, v) ((w.rangeHashes_perm _).mem_iff.mp he) hp

theorem unique_size_never_hashed_witness :
    (scanned uniqueSizesWorld ["r"]).filesizes = [(1, ["r/x"]), (2, ["r/y"])] ∧
    ("r/x" ∉ (main uniqueSizesWorld ["r"]).calls ∧
      (∀ e ∈ (hashed uniqueSizesWorld ["r"]).hashing, "r/x" ∉ e.2) ∧
      (∀ g ∈ (main uniqueSizesWorld ["r"]).groups, "r/x" ∉ g)) :=
  ⟨by decide, unique_size_never_hashed uniqueSizesWorld ["r"] "r/x" (by decide)⟩

/-- C7: for every sequence of hash buckets, in the order the reporting loop
visits them, standard output is the header line, then one line for each bucket
with at least two paths and none for the others, each line being two spaces,
the number of paths between brackets, a space, and the paths in bucket order,
each between double quotes, separated by a comma and a space; the line
"No duplicates found!" follows exactly when no bucket has two paths. -/
theorem report_stdout (visited : List (List String)) :
    (report visited).stdout =
      "The following files are duplicates of eachother:" ::
        ((visited.filter (fun g => 2 ≤ g.length)).map groupLine ++
          (if ∀ g ∈ visited, g.length < 2 then ["No duplicates found!"] else [])) := by
  unfold report
  rw [foldl_reportStep]
  have hmap : (visited.filter (fun g => 2 ≤ g.length)).map (fun g => printGroup g.length g) =
      (visited.filter (fun g => 2 ≤ g.length)).map groupLine := by
    apply List.map_congr_left
    intro g hg
    have hlen := (List.mem_filter.mp hg).2
    apply printGroup_eq_groupLine
    intro h0; subst h0; simp at hlen
  rw [hmap]
  by_cases hall : ∀ g ∈ visited, g.length < 2
  · have hnil : visited.filter (fun g => 2 ≤ g.length) = [] := by
      apply List.filter_eq_nil_iff.mpr
      intro g hg
      have := hall g hg
      simp; omega
    rw [if_pos hall]
    simp [hnil]
  · have hne : (visited.filter (fun g => 2 ≤ g.length)).length ≠ 0 := by
      intro h0
      apply hall
      intro g hg
      by_contra hlt
      have : g ∈ visited.filter (fun g => 2 ≤ g.length) :=
        List.mem_filter.mpr ⟨hg, by simp; omega⟩
      rw [List.length_eq_zero.mp h0] at this
      simp at this
    rw [if_neg hall]
    simp [hne]

/-- C8: when an argument `r` is not a valid root (it cannot be opened or
stat-ed, or is not a directory), `main` exits with status 1, the size buckets
and the hash buckets are those of the run without `r` (no entry comes from it
and every other root is walked as before), and the report of those buckets
is printed. -/
theorem invalid_root_skipped (w : World) (args : List String) (r : String)
    (hr : r ∈ args) (hbad : validRoot w r = false) :
    (main w args).exitCode = 1 ∧
    (scanned w args).filesizes = (scanned w (args.filter (fun x => x ≠ r))).filesizes ∧
    (hashed w args).hashing = (hashed w (args.filter (fun x => x ≠ r))).hashing ∧
    (main w args).stdout =
      (report ((w.rangeHashes (hashed w (args.filter (fun x => x ≠ r))).hashing).map
        Prod.snd)).stdout := by
  have hargs : args ≠ [] := by
    intro h0; subst h0; simp at hr
  have hfs : (scanned w args).filesizes =
      (scanned w (args.filter (fun x => x ≠ r))).filesizes := by
    unfold scanned
    rw [scanRoots_filesizes, scanRoots_filesizes,
      walkFrom_filter_invalid w r hbad args scanInit.dirnames scanInit.dirnames
        (fun _ _ => Iff.rfl)]
  have hh := hashed_hashing_congr w args _ hfs
  refine ⟨?_, hfs, hh, ?_⟩
  · rw [main_exitCode w args hargs]
    have : (scanned w args).errors = true :=
      scanRoots_errors_of_invalid w args scanInit r hr (by simp [scanInit]) hbad
    simp [this]
  · rw [main_stdout w args hargs, hh]

theorem invalid_root_skipped_witness :
    validRoot twinsWorld "C" = false ∧
    ((main twinsWorld ["A", "C", "B"]).exitCode = 1 ∧
      (scanned twinsWorld ["A", "C", "B"]).filesizes =
        (scanned twinsWorld (["A", "C", "B"].filter (fun x => x ≠ "C"))).filesizes ∧
      (hashed twinsWorld ["A", "C", "B"]).hashing =
        (hashed twinsWorld (["A", "C", "B"].filter (fun x => x ≠ "C"))).hashing ∧
      (main twinsWorld ["A", "C", "B"]).stdout =
        (report ((twinsWorld.rangeHashes
          (hashed twinsWorld (["A", "C", "B"].filter (fun x => x ≠ "C"))).hashing).map
            Prod.snd)).stdout) :=
  ⟨by decide, invalid_root_skipped twinsWorld ["A", "C", "B"] "C" (by decide) (by decide)⟩

/-- C9, refuted as stated: the distinct roots `A` and `B` each hold an empty
file `a.txt`; `hashFile` fails on both and `main` prints no group. -/
theorem empty_twins_not_grouped :
    validRoot emptyTwinsWorld "A" = true ∧ validRoot emptyTwinsWorld "B" = true ∧
    emptyTwinsWorld.readDir "A" = .listing (.file "a.txt" 0 .nil) ∧
    emptyTwinsWorld.readDir "B" = .listing (.file "a.txt" 0 .nil) ∧
    emptyTwinsWorld.osOpen "A/a.txt" = some ⟨some false, some []⟩ ∧
    emptyTwinsWorld.osOpen "B/a.txt" = some ⟨some false, some []⟩ ∧
    (main emptyTwinsWorld ["A", "B"]).groups = [] ∧
    (main emptyTwinsWorld ["A", "B"]).stdout =
      ["The following files are duplicates of eachother:", "No duplicates found!"] := by
  have ha := hashFile_empty emptyTwinsWorld "A/a.txt" ⟨some false, some []⟩ rfl rfl
  have hb := hashFile_empty emptyTwinsWorld "B/a.txt" ⟨some false, some []⟩ rfl rfl
  have hscan : (scanned emptyTwinsWorld ["A", "B"]).filesizes =
      [(0, ["A/a.txt", "B/a.txt"])] := by decide
  have hr₁ : ∀ m, emptyTwinsWorld.rangeSizes m = m := fun _ => rfl
  have hr₂ : ∀ m, emptyTwinsWorld.rangeHashes m = m := fun _ => rfl
  have hh : (hashed emptyTwinsWorld ["A", "B"]).hashing = [] := by
    unfold hashed
    rw [hscan, hr₁, hashAll_cons_pair, hashAll_nil, hashStep_error _ _ _ _ ha,
      hashStep_error _ _ _ _ hb]
  refine ⟨by decide, by decide, rfl, rfl, rfl, rfl, ?_, ?_⟩
  · rw [main_groups, hh, hr₂]
    decide
  · rw [main_stdout _ _ (by simp), hh, hr₂]
    decide

/-- C9, as amended: when two distinct arguments are valid roots whose listings
each have a file `a.txt`, and both files open with the same non-empty content
`c`, `main` prints a duplicate group that contains the `a.txt` path of each root. -/
theorem twins_grouped (w : World) (args : List String) (r₁ r₂ : String) (es₁ es₂ : Entries)
    (f₁ f₂ : File) (c : List Byte)
    (hne : r₁ ≠ r₂) (h₁ : r₁ ∈ args) (h₂ : r₂ ∈ args)
    (hv₁ : validRoot w r₁ = true) (hv₂ : validRoot w r₂ = true)
    (hd₁ : w.readDir r₁ = .listing es₁) (hd₂ : w.readDir r₂ = .listing es₂)
    (hf₁ : hasFile "a.txt" c.length es₁ = true) (hf₂ : hasFile "a.txt" c.length es₂ = true)
    (ho₁ : w.osOpen (w.pathJoin r₁ "a.txt") = some f₁) (hc₁ : f₁.content = some c)
    (ho₂ : w.osOpen (w.pathJoin r₂ "a.txt") = some f₂) (hc₂ : f₂.content = some c)
    (hc : c ≠ []) :
    ∃ g ∈ (main w args).groups,
      [w.pathJoin r₁ "a.txt", w.pathJoin r₂ "a.txt"].Subperm g ∧
      groupLine g ∈ (main w args).stdout := by
  have hm₁ : (w.pathJoin r₁ "a.txt", (c.length : Int)) ∈ filesUnder w r₁ := by
    unfold filesUnder
    rw [hd₁]
    exact mem_filesAmong_of_hasFile _ _ _ _ es₁ hf₁
  have hm₂ : (w.pathJoin r₂ "a.txt", (c.length : Int)) ∈ filesUnder w r₂ := by
    unfold filesUnder
    rw [hd₂]
    exact mem_filesAmong_of_hasFile _ _ _ _ es₂ hf₂
  have hwalk : [(w.pathJoin r₁ "a.txt", (c.length : Int)),
      (w.pathJoin r₂ "a.txt", (c.length : Int))].Subperm (walkFrom w [] args) :=
    (List.Sublist.append (List.singleton_sublist.mpr hm₁)
      (List.singleton_sublist.mpr hm₂)).subperm.trans
      (subperm_walkFrom_two w r₁ r₂ hne hv₁ hv₂ args [] h₁ h₂ (by simp) (by simp))
  have hbucket : [w.pathJoin r₁ "a.txt", w.pathJoin r₂ "a.txt"].Subperm
      (mapIndex (scanned w args).filesizes (c.length : Int)) := by
    rw [scanned_index]
    have := subperm_map Prod.fst
      (List.Subperm.filter (fun e : String × Int => decide (e.2 = (c.length : Int))) hwalk)
    simpa [List.filter_cons] using this
  have hlen : 2 ≤ (mapIndex (scanned w args).filesizes (c.length : Int)).length := by
    simpa using hbucket.length_le
  have hmem : ((c.length : Int), mapIndex (scanned w args).filesizes (c.length : Int)) ∈
      w.rangeSizes (scanned w args).filesizes := by
    apply (w.rangeSizes_perm _).mem_iff.mpr
    apply mem_of_mapIndex_ne_nil
    intro h0
    rw [h0] at hlen
    simp at hlen
  have hcalls : [w.pathJoin r₁ "a.txt", w.pathJoin r₂ "a.txt"].Subperm (main w args).calls := by
    rw [main_calls]
    exact hbucket.trans (sublist_candidates _ _ hmem hlen).subperm
  obtain ⟨g, hg, hsub⟩ := group_of_subperm_calls w args _ _ (paddedPrefix c) hcalls
    ((hashKeyOf_eq_some_iff w _ _).mpr ⟨f₁, c, ho₁, hc₁, hc, rfl⟩)
    ((hashKeyOf_eq_some_iff w _ _).mpr ⟨f₂, c, ho₂, hc₂, hc, rfl⟩)
  exact ⟨g, hg, hsub, groupLine_mem_stdout w args g hg⟩

theorem twins_grouped_witness :
    ∃ g ∈ (main twinsWorld ["A", "B"]).groups,
      [twinsWorld.pathJoin "A" "a.txt", twinsWorld.pathJoin "B" "a.txt"].Subperm g ∧
      groupLine g ∈ (main twinsWorld ["A", "B"]).stdout :=
  twins_grouped twinsWorld ["A", "B"] "A" "B" (.file "a.txt" 5 .nil) (.file "a.txt" 5 .nil)
    ⟨some false, some helloBytes⟩ ⟨some false, some helloBytes⟩ helloBytes
    (by decide) (by decide) (by decide) (by decide) (by decide) rfl rfl
    (by decide) (by decide) rfl rfl rfl rfl (by decide)

/-- C10: for every directory tree, every size `s` and every earlier state of
`filesizes`, the bucket `filesizes[s]` after `parsePath(root, filesizes)` is
the bucket before the call, unchanged and in order, followed by the joined
paths of exactly the non-directory entries of size `s` beneath `root` that lie
only under listable directories, each once. -/
theorem parsePath_bucket (w : World) (root : String) (filesizes : SizeMap) (s : Int) :
    mapIndex (parsePath w root filesizes) s =
      mapIndex filesizes s ++
        ((filesUnder w root).filter (fun e => e.2 = s)).map Prod.fst := by
  rw [parsePath_eq_foldl, mapIndex_foldl_mapAppend]

end Duplifinder
